import Mathlib

/-!
Verification development for `src/gen_dispatch.py` of libepoxy: the
registry-to-dispatch generator.  The Python classes `GLProvider`,
`GLFunction` and `Generator` are embedded as Lean structures and pure
functions; the mutable `functions` dictionary of `Generator` becomes an
insertion-ordered association list threaded through each pass, and the
C resolution procedure emitted by `Generator.write_provider_resolver`
is embedded as a function over an abstract run-time state.
-/

namespace GenDispatch

/-- Strict lexicographic comparison of lists of naturals.  This is how
Python compares two strings (by code points) once they are mapped to
their code-point sequences, and a shorter list that is a prefix of a
longer one compares less. -/
def natsLtb : List Nat → List Nat → Bool
  | [], [] => false
  | [], _ :: _ => true
  | _ :: _, [] => false
  | a :: as, b :: bs =>
    if a < b then true else if b < a then false else natsLtb as bs

/-- The code points of a string, used to model Python string comparison. -/
def strCodes (s : String) : List Nat := s.data.map Char.toNat

/-- Python `a < b` on strings. -/
def strLtb (a b : String) : Bool := natsLtb (strCodes a) (strCodes b)

/-- Removes every (left-to-right, non-overlapping) occurrence of the
two-character sequence backslash-doublequote, as Python
`s.replace('\\"', '')` does in `GLProvider.__init__`. -/
def stripBackslashQuote : List Char → List Char
  | '\\' :: '"' :: t => stripBackslashQuote t
  | c :: t => c :: stripBackslashQuote t
  | [] => []

/-- The C enum token `GLProvider.__init__` derives from the
human-readable condition name: spaces and dots become underscores,
backslash-quote pairs are removed, and the result is prefixed with
`PROVIDER_` (gen_dispatch.py lines 68-73). -/
def providerEnum (condition_name : String) : String :=
  let s1 := condition_name.data.map fun c => if c = ' ' then '_' else c
  let s2 := stripBackslashQuote s1
  let s3 := s2.map fun c => if c = '.' then '_' else c
  String.mk ("PROVIDER_".data ++ s3)

/-- Embedding of the Python class `GLProvider` (gen_dispatch.py lines
50-73).  All fields are set by the constructor; `enum` is computed from
`condition_name` alone. -/
structure GLProvider where
  condition : String
  condition_name : String
  loader : String
  name : String
  enum : String
deriving DecidableEq, Repr

/-- `GLProvider.__init__`: stores the four arguments and derives the
enum token from the condition name. -/
def mkProvider (condition condition_name loader name : String) : GLProvider :=
  { condition := condition
    condition_name := condition_name
    loader := loader
    name := name
    enum := providerEnum condition_name }

/-- One formal argument of a command: its C type and its name
(the `group` attribute is dropped by `add_arg` except for enum types
and never affects the passes verified here). -/
structure GLArg where
  type : String
  name : String
deriving DecidableEq, Repr

/-- Embedding of the Python class `GLFunction` restricted to the fields
the model-building passes read or write: `name`, `args`, the alias
triple (`alias_name`, `alias_func`, `alias_exts`) and the
insertion-ordered `providers` dictionary.  Object references
(`alias_func`, the members of `alias_exts`) are represented by function
names, which is faithful because `parse_function_definitions` stores
every function in `Generator.functions` under its own name. -/
structure GLFunction where
  name : String
  args : List GLArg
  alias_name : String
  alias_func : Option String
  alias_exts : List String
  providers : List (String × GLProvider)
deriving DecidableEq, Repr

/-- `GLFunction.__init__`: a fresh function is its own alias target and
has no providers, no dependent aliases and no arguments. -/
def mkGLFunction (name : String) : GLFunction :=
  { name := name
    args := []
    alias_name := name
    alias_func := none
    alias_exts := []
    providers := [] }

/-- `GLFunction.add_arg`: appends an argument, renaming `near`/`far`
to `hither`/`yon` as the Python does for win32. -/
def GLFunction.add_arg (f : GLFunction) (arg_type arg_name : String) : GLFunction :=
  let arg_name :=
    if arg_name = "near" then "hither"
    else if arg_name = "far" then "yon"
    else arg_name
  { f with args := f.args ++ [{ type := arg_type, name := arg_name }] }

/-- `GLFunction.args_decl`: the comma-separated C declaration list of
the arguments, `void` when there are none. -/
def GLFunction.args_decl (f : GLFunction) : String :=
  let r := ", ".intercalate (f.args.map fun a => a.type ++ " " ++ a.name)
  if r = "" then "void" else r

/-- Python dictionary assignment `d[k] = v`: if the key is present its
value is replaced in place (position preserved), otherwise the pair is
appended at the end. -/
def dictInsert (k : String) (v : α) : List (String × α) → List (String × α)
  | [] => [(k, v)]
  | (k', v') :: t => if k' = k then (k', v) :: t else (k', v') :: dictInsert k v t

/-- Mutation of the value stored under an existing key (attribute
assignment on the object held in the dictionary). -/
def mapModify (k : String) (g : α → α) : List (String × α) → List (String × α)
  | [] => []
  | (k', v) :: t => if k' = k then (k', g v) :: t else (k', v) :: mapModify k g t

/-- Python `del d[k]`: removes the entry for `k`. -/
def mapErase (k : String) : List (String × α) → List (String × α)
  | [] => []
  | (k', v) :: t => if k' = k then t else (k', v) :: mapErase k t

/-- `GLFunction.add_provider` (gen_dispatch.py lines 179-181):
`self.providers[condition_name] = GLProvider(condition, condition_name,
loader, self.name)`. -/
def GLFunction.add_provider (f : GLFunction) (condition loader condition_name : String) :
    GLFunction :=
  { f with
    providers :=
      dictInsert condition_name (mkProvider condition condition_name loader f.name)
        f.providers }

/-- The `Generator.functions` dictionary: an insertion-ordered map from
command name to its `GLFunction`. -/
abbrev FMap := List (String × GLFunction)

/-- Whether the character list `pat` occurs as a contiguous substring of
`hay` — Python's `pat in hay` on strings. -/
def charsContains (pat : List Char) : List Char → Bool
  | [] => pat.isEmpty
  | c :: t => pat.isPrefixOf (c :: t) || charsContains pat t

/-- Python `pat in s` for strings. -/
def strContains (s pat : String) : Bool := charsContains pat.data s.data

/-- `Generator.drop_weird_glx_functions` (gen_dispatch.py lines
313-322): deletes every command whose argument declaration mentions the
`VLServer` or `DMparams` types, which come from headers the target
cannot depend on. -/
def drop_weird_glx_functions (funcs : FMap) : FMap :=
  funcs.filter fun kv =>
    !(strContains kv.2.args_decl "VLServer" || strContains kv.2.args_decl "DMparams")

/-- `Generator.process_require_statements` (gen_dispatch.py lines
357-370): for each required command name, on the `wgl` target a command
whose name does not contain `wgl` is deleted instead of wrapped
(Python `del`, which raises `KeyError` — modelled as `none` — when the
name is absent); otherwise the command is looked up (`KeyError`,
modelled as `none`, if the registry references an undeclared command)
and the provider binding for this feature or extension is attached to
it. -/
def process_require_statements (target : String) (cmds : List String)
    (condition loader human_name : String) (funcs : FMap) : Option FMap :=
  match cmds with
  | [] => some funcs
  | name :: rest =>
    if target = "wgl" ∧ strContains name "wgl" = false then
      if (funcs.lookup name).isSome then
        process_require_statements target rest condition loader human_name
          (mapErase name funcs)
      else none
    else
      match funcs.lookup name with
      | none => none
      | some f =>
        process_require_statements target rest condition loader human_name
          (dictInsert name (f.add_provider condition loader human_name) funcs)

/-- The chain walk of `Generator.resolve_aliases` (gen_dispatch.py
lines 328-330): starting from an alias-target name, repeatedly follow
`alias_name` until reaching a function that names itself, returning the
key under which that root is stored.  The Python `while` loop has no
step bound; `fuel` makes the walk total, and `none` covers both a
lookup of an undeclared command (Python `KeyError`) and fuel
exhaustion.  A terminating Python walk visits pairwise-distinct
functions, so any fuel larger than the table size yields the same
result the Python walk does, and on a cyclic chain the walk returns
`none` for every fuel — the Python loop never exits. -/
def findRoot (funcs : FMap) : Nat → String → Option String
  | 0, _ => none
  | fuel + 1, n =>
    match funcs.lookup n with
    | none => none
    | some f => if f.alias_name = f.name then some n else findRoot funcs fuel f.alias_name

/-- One iteration of the loop in `Generator.resolve_aliases`
(gen_dispatch.py lines 325-333) for the function stored under `n`: a
function that names itself is left alone; otherwise the chain is
walked to its root, the function's `alias_name`/`alias_func` are
rewritten to that root, and the function is appended to the root's
`alias_exts`. -/
def resolveStep (funcs : FMap) (n : String) : Option FMap :=
  match funcs.lookup n with
  | none => none
  | some f =>
    if f.alias_name = f.name then some funcs
    else
      match findRoot funcs (funcs.length + 1) f.alias_name with
      | none => none
      | some r =>
        some (mapModify r (fun g => { g with alias_exts := g.alias_exts ++ [n] })
          (mapModify n (fun g => { g with alias_name := r, alias_func := some r }) funcs))

/-- Iteration of `resolveStep` over a list of function names. -/
def resolveGo : List String → FMap → Option FMap
  | [], funcs => some funcs
  | n :: ns, funcs =>
    match resolveStep funcs n with
    | none => none
    | some funcs' => resolveGo ns funcs'

/-- `Generator.resolve_aliases`: processes every function of the table,
in table order. -/
def resolve_aliases (funcs : FMap) : Option FMap :=
  resolveGo (funcs.map Prod.fst) funcs

/-- All provider bindings of the table in the order
`Generator.prepare_provider_enum` visits them: functions in table
order, each function's providers in insertion order. -/
def allProviders (funcs : FMap) : List GLProvider :=
  (funcs.map fun kv => kv.2.providers.map Prod.snd).flatten

/-- The interning loop of `Generator.prepare_provider_enum`
(gen_dispatch.py lines 335-352).  The accumulator merges the three
Python dictionaries `provider_enum`, `provider_condition` and
`provider_loader`, all keyed by the human-readable condition name.  The
first sighting of a condition name defines the canonical entry; every
later binding with the same name must agree on condition and loader
text, the Python `assert` failure being modelled as `none`. -/
def prepGo : List GLProvider → List (String × String × String × String) →
    Option (List (String × String × String × String))
  | [], acc => some acc
  | p :: ps, acc =>
    match acc.lookup p.condition_name with
    | some (_, c, l) =>
      if c = p.condition ∧ l = p.loader then prepGo ps acc else none
    | none => prepGo ps (acc ++ [(p.condition_name, p.enum, p.condition, p.loader)])

/-- `Generator.prepare_provider_enum` over the whole function table. -/
def prepare_provider_enum (funcs : FMap) :
    Option (List (String × String × String × String)) :=
  prepGo (allProviders funcs) []

/-- The literal `half_aliases` table of
`Generator.write_function_ptr_resolver` (gen_dispatch.py lines
623-630): historical entry points that are not true aliases but are
acceptable fallbacks for each other. -/
def half_aliases : List (String × String) :=
  [("glBindVertexArray", "glBindVertexArrayAPPLE"),
   ("glBindVertexArrayAPPLE", "glBindVertexArray"),
   ("glBindFramebuffer", "glBindFramebufferEXT"),
   ("glBindFramebufferEXT", "glBindFramebuffer"),
   ("glBindRenderbuffer", "glBindRenderbufferEXT"),
   ("glBindRenderbufferEXT", "glBindRenderbuffer")]

/-- The candidate-gathering prefix of
`Generator.write_function_ptr_resolver` (gen_dispatch.py lines
607-634): the providers of the alias root (the function itself when it
is not an alias), then the providers of each dependent alias of the
root, then — when the function's name is in `half_aliases` — the
providers of its near-alias partner.  Lookups of object references
cannot fail in Python; `none` models the impossible dangling
reference. -/
def gatherProviders (funcs : FMap) (f : GLFunction) : Option (List GLProvider) :=
  match (match f.alias_func with
         | some rn => funcs.lookup rn
         | none => some f) with
  | none => none
  | some root =>
    match root.alias_exts.mapM funcs.lookup with
    | none => none
    | some exts =>
      match (match half_aliases.lookup f.name with
             | some partner =>
               (funcs.lookup partner).map fun g : GLFunction => g.providers.map Prod.snd
             | none => some []) with
      | none => none
      | some halfPs =>
        some (root.providers.map Prod.snd
          ++ (exts.map fun g : GLFunction => g.providers.map Prod.snd).flatten ++ halfPs)

/-- The sort key of the local `provider_sort` in
`Generator.write_function_ptr_resolver` (gen_dispatch.py lines
636-637): the Python tuple
`(provider.name != func.name, provider.name, provider.enum)`, with the
two strings taken as their code-point sequences so that comparison is
Python's. -/
def provKey (fname : String) (p : GLProvider) : Bool × List Nat × List Nat :=
  (p.name != fname, strCodes p.name, strCodes p.enum)

/-- Python comparison of a pair of strings (as code-point lists),
lexicographically. -/
def nnLtb (p q : List Nat × List Nat) : Bool :=
  natsLtb p.1 q.1 || (p.1 == q.1 && natsLtb p.2 q.2)

/-- Python comparison of the `provider_sort` key tuples:
`false < true` on the leading boolean, then the two strings in turn. -/
def keyLtb (x y : Bool × List Nat × List Nat) : Bool :=
  match x.1, y.1 with
  | false, true => true
  | true, false => false
  | _, _ => nnLtb x.2 y.2

/-- The non-strict order `providers.sort(key=provider_sort)` sorts by:
`a` may stay before `b` exactly when `b`'s key is not strictly below
`a`'s. -/
def provLe (fname : String) (a b : GLProvider) : Prop :=
  keyLtb (provKey fname b) (provKey fname a) = false

instance (fname : String) : DecidableRel (provLe fname) := fun a b =>
  inferInstanceAs (Decidable (_ = false))

/-- `providers.sort(key=provider_sort)`: Python's sort is the stable
sort by the key, which insertion sort with the non-strict key order
implements exactly. -/
def providersSorted (fname : String) (ps : List GLProvider) : List GLProvider :=
  ps.insertionSort (provLe fname)

/-- Modelled from the spec's words, for comparison with the source's
`provider_sort`: claim C2 orders remaining candidates by the provider's
human-readable label (`condition_name`), not by the bound entry-point
name, so its key tuple is
`(provider.name != func.name, provider.condition_name, provider.enum)`. -/
def specClaimKey (fname : String) (p : GLProvider) : Bool × List Nat × List Nat :=
  (p.name != fname, strCodes p.condition_name, strCodes p.enum)

/-- Modelled from the spec's words: the candidate order claim C2
describes — stable sort by `specClaimKey`. -/
def specClaimLe (fname : String) (a b : GLProvider) : Prop :=
  keyLtb (specClaimKey fname b) (specClaimKey fname a) = false

instance (fname : String) : DecidableRel (specClaimLe fname) := fun a b =>
  inferInstanceAs (Decidable (_ = false))

/-- Modelled from the spec's words: the gathered candidates ordered as
claim C2 states. -/
def specClaimSorted (fname : String) (ps : List GLProvider) : List GLProvider :=
  ps.insertionSort (specClaimLe fname)

/-- What `Generator.write_function_ptr_resolver` emits for one
function, abstracted to the decision claims C1 and C5 are about: either
the general ordered-candidate procedure (the provider enum tokens and
bound entry-point names, in emission order) or the specialized
single-candidate call. -/
inductive ResolverPlan where
  | general (enums : List String) (entries : List String)
  | single (enum : String) (entry : String)
deriving DecidableEq, Repr

/-- The emission decision of `Generator.write_function_ptr_resolver`
(gen_dispatch.py lines 640-664) on the sorted candidate list: one
candidate emits the specialized single-candidate resolver after the
`assert providers[0].name == func.name` (failure modelled as `none`);
any other length emits the general resolver. -/
def resolverChoice (fname : String) (ps : List GLProvider) : Option ResolverPlan :=
  match providersSorted fname ps with
  | [p] => if p.name = fname then some (.single p.enum p.name) else none
  | l => some (.general (l.map fun p => p.enum) (l.map fun p => p.name))

/-- `Generator.write_function_ptr_resolver`: gather, sort, decide. -/
def write_function_ptr_resolver (funcs : FMap) (f : GLFunction) : Option ResolverPlan :=
  (gatherProviders funcs f).bind (resolverChoice f.name)

/-- The fixed run-time state the emitted `*_provider_resolver` C
function (written by `Generator.write_provider_resolver`,
gen_dispatch.py lines 749-792) executes in: per provider enum token,
the value of the interned availability condition and the loader's
result for a requested entry-point name; the interned human-readable
label (`enum_string` table); and the injectable
`epoxy_resolver_failure_handler` hook. -/
structure RtState where
  condOf : String → Bool
  loadOf : String → String → Nat
  labelOf : String → String
  hook : Option (String → Nat)

/-- One candidate of the emitted resolver: a provider enum token from
the `providers[]` array paired with the bound entry-point name from the
`entrypoints[]` array at the same index. -/
structure RCand where
  enum : String
  entry : String
deriving DecidableEq, Repr

/-- The candidate loop of the emitted resolver: conditions are
evaluated in array order; the first true condition returns its loader's
result for the candidate's own entry-point name.  The second component
records which candidates had their condition evaluated, in order. -/
def resolveLoop (st : RtState) : List RCand → Option Nat × List String
  | [] => (none, [])
  | c :: cs =>
    if st.condOf c.enum then (some (st.loadOf c.enum c.entry), [c.enum])
    else ((resolveLoop st cs).1, c.enum :: (resolveLoop st cs).2)

/-- Outcome of the emitted resolver: an address returned to the caller,
or `abort()` after printing the diagnostic lines. -/
inductive ResolveOutcome where
  | addr (a : Nat)
  | fatal (diag : List String)
deriving DecidableEq, Repr

/-- The emitted `*_provider_resolver` body: run the candidate loop; on
fall-through call the failure hook when one is registered, else print
one diagnostic line per candidate — its provider's human-readable label,
in array order — and abort, never returning null.  (The surrounding
`No provider of %s found` header line is not part of the per-candidate
enumeration and is left out of `diag`.)  The evaluation trace of the
loop is returned alongside. -/
def provider_resolver (st : RtState) (name : String) (cands : List RCand) :
    ResolveOutcome × List String :=
  match resolveLoop st cands with
  | (some a, tr) => (.addr a, tr)
  | (none, tr) =>
    match st.hook with
    | some h => (.addr (h name), tr)
    | none => (.fatal (cands.map fun c => st.labelOf c.enum), tr)

/-- Number of times the name `x` occurs in the `alias_exts` lists of
the table — how many dependent-alias lists `x` is attached to, with
multiplicity. -/
def countExts (funcs : FMap) (x : String) : Nat :=
  (funcs.map fun kv => kv.2.alias_exts.count x).sum

/-- Every function is stored under its own name
(`parse_function_definitions` establishes this). -/
def KeysMatch (funcs : FMap) : Prop :=
  ∀ k f, funcs.lookup k = some f → f.name = k

/-- The function stored under `x` names itself as its own alias
target. -/
def IsRoot (funcs : FMap) (x : String) : Prop :=
  ∃ g, funcs.lookup x = some g ∧ g.alias_name = g.name

theorem natsLtb_irrefl : ∀ (a : List Nat), natsLtb a a = false := by
  intro a
  induction a with
  | nil => rfl
  | cons x xs ih => simp [natsLtb, ih]

theorem natsLtb_asymm : ∀ {a b : List Nat}, natsLtb a b = true → natsLtb b a = false := by
  intro a
  induction a with
  | nil =>
    intro b h
    cases b with
    | nil => simpa [natsLtb] using h
    | cons y ys => simp [natsLtb]
  | cons x xs ih =>
    intro b h
    cases b with
    | nil => simp [natsLtb] at h
    | cons y ys =>
      simp only [natsLtb] at h ⊢
      by_cases hxy : x < y
      · simp [hxy, show ¬ y < x by omega]
      · by_cases hyx : y < x
        · simp [hxy, hyx] at h
        · simp only [hxy, hyx, if_neg, if_false] at h ⊢
          simp [ih h]

theorem natsLtb_trans : ∀ {a b c : List Nat},
    natsLtb a b = true → natsLtb b c = true → natsLtb a c = true := by
  intro a
  induction a with
  | nil =>
    intro b c hab hbc
    cases b with
    | nil => simp [natsLtb] at hab
    | cons y ys =>
      cases c with
      | nil => simp [natsLtb] at hbc
      | cons z zs => simp [natsLtb]
  | cons x xs ih =>
    intro b c hab hbc
    cases b with
    | nil => simp [natsLtb] at hab
    | cons y ys =>
      cases c with
      | nil => simp [natsLtb] at hbc
      | cons z zs =>
        simp only [natsLtb] at hab hbc ⊢
        by_cases hxy : x < y
        · by_cases hyz : y < z
          · rw [if_pos (Nat.lt_trans hxy hyz)]
          · rw [if_neg hyz] at hbc
            by_cases hzy : z < y
            · rw [if_pos hzy] at hbc; exact absurd hbc (by simp)
            · have hyz' : y = z := by omega
              subst hyz'
              rw [if_pos hxy]
        · rw [if_neg hxy] at hab
          by_cases hyx : y < x
          · rw [if_pos hyx] at hab; exact absurd hab (by simp)
          · rw [if_neg hyx] at hab
            have hxy' : x = y := by omega
            subst hxy'
            by_cases hxz : x < z
            · rw [if_pos hxz]
            · rw [if_neg hxz] at hbc ⊢
              by_cases hzx : z < x
              · rw [if_pos hzx] at hbc; exact absurd hbc (by simp)
              · rw [if_neg hzx] at hbc ⊢
                exact ih hab hbc

theorem natsLtb_conn : ∀ {a b : List Nat},
    natsLtb a b = false → natsLtb b a = false → a = b := by
  intro a
  induction a with
  | nil =>
    intro b hab _
    cases b with
    | nil => rfl
    | cons y ys => simp [natsLtb] at hab
  | cons x xs ih =>
    intro b hab hba
    cases b with
    | nil => simp [natsLtb] at hba
    | cons y ys =>
      simp only [natsLtb] at hab hba
      by_cases hxy : x < y
      · rw [if_pos hxy] at hab; exact absurd hab (by simp)
      · by_cases hyx : y < x
        · rw [if_pos hyx] at hba; exact absurd hba (by simp)
        · rw [if_neg hxy, if_neg hyx] at hab
          rw [if_neg hyx, if_neg hxy] at hba
          have hxy' : x = y := by omega
          rw [hxy', ih hab hba]

theorem natsLe_trans {a b c : List Nat}
    (hba : natsLtb b a = false) (hcb : natsLtb c b = false) : natsLtb c a = false := by
  cases hca : natsLtb c a with
  | false => rfl
  | true =>
    cases hab : natsLtb a b with
    | true =>
      have h := natsLtb_trans hca hab
      rw [h] at hcb
      exact absurd hcb (by simp)
    | false =>
      have h : a = b := natsLtb_conn hab hba
      subst h
      rw [hca] at hcb
      exact hcb

/-- Asymmetry of the pairwise string comparison. -/
theorem nn_asymm {p q : List Nat × List Nat} (h : nnLtb p q = true) : nnLtb q p = false := by
  simp only [nnLtb, Bool.or_eq_true, Bool.and_eq_true, beq_iff_eq] at h
  rcases h with h | ⟨he, h⟩
  · have h1 := natsLtb_asymm h
    have h2 : q.1 ≠ p.1 := by
      intro e; rw [e] at h; rw [natsLtb_irrefl] at h; exact Bool.false_ne_true h
    simp [nnLtb, h1, h2]
  · simp [nnLtb, ← he, natsLtb_irrefl, natsLtb_asymm h]

theorem nn_le_trans {p q r : List Nat × List Nat}
    (hba : nnLtb q p = false) (hcb : nnLtb r q = false) : nnLtb r p = false := by
  simp only [nnLtb, Bool.or_eq_false_iff, Bool.and_eq_false_iff,
    beq_eq_false_iff_ne, ne_eq] at hba hcb ⊢
  obtain ⟨hba1, hba2⟩ := hba
  obtain ⟨hcb1, hcb2⟩ := hcb
  refine ⟨natsLe_trans hba1 hcb1, ?_⟩
  by_cases h31 : r.1 = p.1
  · have h32 : r.1 = q.1 := natsLtb_conn hcb1 (by rw [h31]; exact hba1)
    rcases hba2 with h | h
    · exact absurd (by rw [← h32, h31]) h
    · rcases hcb2 with h' | h'
      · exact absurd h32 h'
      · exact Or.inr (natsLe_trans h h')
  · exact Or.inl h31

theorem nn_le_total (p q : List Nat × List Nat) :
    nnLtb p q = false ∨ nnLtb q p = false := by
  cases h : nnLtb p q with
  | false => exact Or.inl rfl
  | true => exact Or.inr (nn_asymm h)

theorem keyLtb_le_trans {x y z : Bool × List Nat × List Nat}
    (hba : keyLtb y x = false) (hcb : keyLtb z y = false) : keyLtb z x = false := by
  obtain ⟨xb, xn⟩ := x
  obtain ⟨yb, yn⟩ := y
  obtain ⟨zb, zn⟩ := z
  cases xb <;> cases yb <;> cases zb <;>
    simp only [keyLtb] at hba hcb ⊢ <;>
    first
      | rfl
      | exact nn_le_trans hba hcb
      | exact absurd hba (by decide)
      | exact absurd hcb (by decide)

theorem keyLtb_le_total (x y : Bool × List Nat × List Nat) :
    keyLtb x y = false ∨ keyLtb y x = false := by
  obtain ⟨xb, xn⟩ := x
  obtain ⟨yb, yn⟩ := y
  cases xb <;> cases yb <;>
    simp only [keyLtb] <;>
    first
      | exact Or.inl rfl
      | exact Or.inr rfl
      | exact Or.inl trivial
      | exact Or.inr trivial
      | exact nn_le_total _ _

instance provLe_total (fname : String) : IsTotal GLProvider (provLe fname) :=
  ⟨fun a b => (keyLtb_le_total (provKey fname a) (provKey fname b)).symm.imp id id⟩

instance provLe_trans (fname : String) : IsTrans GLProvider (provLe fname) :=
  ⟨fun _ _ _ hab hbc => keyLtb_le_trans hab hbc⟩

instance specClaimLe_total (fname : String) : IsTotal GLProvider (specClaimLe fname) :=
  ⟨fun a b => (keyLtb_le_total (specClaimKey fname a) (specClaimKey fname b)).symm.imp id id⟩

instance specClaimLe_trans (fname : String) : IsTrans GLProvider (specClaimLe fname) :=
  ⟨fun _ _ _ hab hbc => keyLtb_le_trans hab hbc⟩

theorem resolveLoop_false_prefix (st : RtState) :
    ∀ pre cs : List RCand, (∀ p ∈ pre, st.condOf p.enum = false) →
      resolveLoop st (pre ++ cs) =
        ((resolveLoop st cs).1, (pre.map fun c => c.enum) ++ (resolveLoop st cs).2) := by
  intro pre
  induction pre with
  | nil => intro cs _; simp
  | cons p t ih =>
    intro cs h
    have hp : st.condOf p.enum = false := h p (by simp)
    simp only [List.cons_append, resolveLoop, hp, Bool.false_eq_true, if_false,
      List.map_cons, List.append_eq]
    rw [ih cs fun q hq => h q (by simp [hq])]

theorem resolveLoop_all_false (st : RtState) (l : List RCand)
    (h : ∀ p ∈ l, st.condOf p.enum = false) :
    resolveLoop st l = (none, l.map fun c => c.enum) := by
  have h2 := resolveLoop_false_prefix st l [] h
  simpa [resolveLoop] using h2

/-- C1: the resolution procedure emitted by
`Generator.write_provider_resolver` evaluates the candidates'
availability conditions in list order; at the first candidate whose
condition holds it returns that candidate's loader result for its own
bound entry-point name, without evaluating any later candidate; when no
condition holds it returns the registered failure hook's result when
one exists, and otherwise aborts with a diagnostic naming every
candidate's human-readable label in list order — it never returns
without an address or an abort. -/
theorem c1_resolution_contract (st : RtState) (name : String)
    (cands pre post : List RCand) (c : RCand) :
    (cands = pre ++ c :: post → (∀ p ∈ pre, st.condOf p.enum = false) →
      st.condOf c.enum = true →
      provider_resolver st name cands =
        (.addr (st.loadOf c.enum c.entry), (pre ++ [c]).map fun p => p.enum))
    ∧ ((∀ p ∈ cands, st.condOf p.enum = false) →
        (∀ h, st.hook = some h →
          provider_resolver st name cands = (.addr (h name), cands.map fun p => p.enum))
        ∧ (st.hook = none → cands ≠ [] →
            provider_resolver st name cands =
              (.fatal (cands.map fun p => st.labelOf p.enum),
                cands.map fun p => p.enum))) := by
  constructor
  · intro hc hpre hcond
    subst hc
    have h1 := resolveLoop_false_prefix st pre (c :: post) hpre
    rw [show resolveLoop st (c :: post) = (some (st.loadOf c.enum c.entry), [c.enum]) from
      by simp [resolveLoop, hcond]] at h1
    simp [provider_resolver, h1]
  · intro hall
    have h1 := resolveLoop_all_false st cands hall
    constructor
    · intro h hh
      simp [provider_resolver, h1, hh]
    · intro hh _
      simp [provider_resolver, h1, hh]

/-- Witness for C1: the spec's `[A(false), B(true), C(true)]` scenario —
resolution returns B's loader result with C never evaluated — and the
all-false, no-hook scenario, which aborts naming the candidates' labels
in order. -/
theorem c1_resolution_contract_witness :
    provider_resolver
        { condOf := fun e => e == "PROVIDER_B" || e == "PROVIDER_C",
          loadOf := fun e n => if e == "PROVIDER_B" && n == "glF" then 42 else 7,
          labelOf := fun e => e, hook := none } "glF"
        [⟨"PROVIDER_A", "glF"⟩, ⟨"PROVIDER_B", "glF"⟩, ⟨"PROVIDER_C", "glF"⟩]
      = (.addr 42, ["PROVIDER_A", "PROVIDER_B"])
    ∧ provider_resolver
        { condOf := fun _ => false, loadOf := fun _ _ => 0,
          labelOf := fun e => String.mk (e.data.drop 9), hook := none } "glF"
        [⟨"PROVIDER_A", "glF"⟩, ⟨"PROVIDER_B", "glF"⟩, ⟨"PROVIDER_C", "glF"⟩]
      = (.fatal ["A", "B", "C"], ["PROVIDER_A", "PROVIDER_B", "PROVIDER_C"]) := by
  constructor
  · exact ((c1_resolution_contract _ "glF" _ [⟨"PROVIDER_A", "glF"⟩]
      [⟨"PROVIDER_C", "glF"⟩] ⟨"PROVIDER_B", "glF"⟩).1 rfl (by decide) (by decide)).trans
      (by decide)
  · exact (((c1_resolution_contract _ "glF" _ [] [] ⟨"PROVIDER_A", "glF"⟩).2
      (by decide)).2 rfl (by decide)).trans (by decide)

/-- C2 (counterexample): the claim orders label-distinct,
entry-point-distinct candidates by human-readable label, but the code's
`provider_sort` key orders them by bound entry-point name.  With
entry-point names `ga`/`gb` and labels `Zlabel`/`Alabel` the code keeps
`ga` (label `Zlabel`) first, while the claimed ordering would put
`Alabel` first. -/
theorem c2_counterexample :
    providersSorted "f"
        [mkProvider "c1" "Zlabel" "l1" "ga", mkProvider "c2" "Alabel" "l2" "gb"]
      = [mkProvider "c1" "Zlabel" "l1" "ga", mkProvider "c2" "Alabel" "l2" "gb"]
    ∧ specClaimSorted "f"
        [mkProvider "c1" "Zlabel" "l1" "ga", mkProvider "c2" "Alabel" "l2" "gb"]
      = [mkProvider "c2" "Alabel" "l2" "gb", mkProvider "c1" "Zlabel" "l1" "ga"] := by
  decide

/-- C2 (amended): the gathered candidates are a permutation of the
input sorted by the key `(entry-point name differs from the function's
default name, entry-point name, canonical provider identifier)`; in the
spec's scenario of two same-entry-point-name candidates labelled
`Desktop OpenGL 2.0` and `GL_ARB_foo`, the identifier tie-break still
orders the `Desktop OpenGL 2.0` candidate first. -/
theorem c2_candidate_order (fname : String) (ps : List GLProvider) :
    List.Sorted (provLe fname) (providersSorted fname ps)
    ∧ (providersSorted fname ps).Perm ps
    ∧ providersSorted "glFoo"
        [mkProvider "cond1" "GL_ARB_foo" "ldr1" "glFoo",
         mkProvider "cond2" "Desktop OpenGL 2.0" "ldr2" "glFoo"]
      = [mkProvider "cond2" "Desktop OpenGL 2.0" "ldr2" "glFoo",
         mkProvider "cond1" "GL_ARB_foo" "ldr1" "glFoo"] :=
  ⟨List.sorted_insertionSort (provLe fname) ps,
   List.perm_insertionSort (provLe fname) ps, by decide⟩

/-- C5 (counterexample): a gathered candidate list with exactly one
entry whose entry-point name differs from the function's default name
(the configuration of an alias with no bindings of its own whose root
has a single binding) makes `write_function_ptr_resolver` fail its
`assert providers[0].name == func.name` — generation aborts instead of
emitting the general ordered-candidate procedure the claim promises for
every non-single-matching case. -/
theorem c5_counterexample :
    resolverChoice "glFoo" [mkProvider "cond" "EXT_label" "ldr" "glFooEXT"] = none := by
  decide

/-- C5 (amended): the specialized single-candidate resolution is
emitted if and only if the gathered candidate list has exactly one
entry and that entry's entry-point name equals the function's default
name; with exactly one entry whose name differs, generation aborts on
the assert; with any other number of candidates the general
ordered-candidate procedure is emitted over the sorted candidates. -/
theorem c5_single_candidate (fname : String) (ps : List GLProvider) :
    (∀ p, ps = [p] →
      (p.name = fname → resolverChoice fname ps = some (.single p.enum p.name))
      ∧ (p.name ≠ fname → resolverChoice fname ps = none))
    ∧ (ps.length ≠ 1 → ∃ l : List GLProvider, l.Perm ps ∧
        resolverChoice fname ps =
          some (.general (l.map fun p => p.enum) (l.map fun p => p.name))) := by
  constructor
  · intro p hp
    subst hp
    constructor
    · intro hn
      simp [resolverChoice, providersSorted, List.insertionSort, List.orderedInsert, hn]
    · intro hn
      simp [resolverChoice, providersSorted, List.insertionSort, List.orderedInsert, hn]
  · intro hlen
    refine ⟨providersSorted fname ps, List.perm_insertionSort _ _, ?_⟩
    have hlen2 : (providersSorted fname ps).length ≠ 1 := by
      rw [providersSorted, List.length_insertionSort]
      exact hlen
    unfold resolverChoice
    cases h : providersSorted fname ps with
    | nil => simp
    | cons a t =>
      cases t with
      | nil => exact absurd (by rw [h]; rfl) hlen2
      | cons b t2 => simp

/-- Witness for C5: a single same-name candidate yields the specialized
resolution; a single differently-named candidate yields the generation
abort. -/
theorem c5_single_candidate_witness :
    resolverChoice "glFoo" [mkProvider "cond" "Desktop OpenGL 1.0" "ldr" "glFoo"]
      = some (.single "PROVIDER_Desktop_OpenGL_1_0" "glFoo")
    ∧ resolverChoice "glBar" [mkProvider "c9" "L9" "l9" "glQux"] = none := by
  constructor
  · exact (((c5_single_candidate "glFoo" _).1 _ rfl).1 rfl).trans (by decide)
  · exact ((c5_single_candidate "glBar" _).1 _ rfl).2 (by decide)

/-- C8: the canonical identifier of a provider is a deterministic pure
function of its human-readable condition label alone (two providers
constructed with the same label but different condition, loader and
entry-point name receive the same identifier); the normalization
replaces non-identifier characters as the scenario shows; and candidate
sorting is a pure function of its input, so an unchanged registry
yields identical candidate order. -/
theorem c8_provider_identifier_deterministic :
    (∀ cond1 ldr1 nm1 cond2 ldr2 nm2 label,
      (mkProvider cond1 label ldr1 nm1).enum = (mkProvider cond2 label ldr2 nm2).enum)
    ∧ providerEnum "Desktop OpenGL 2.0" = "PROVIDER_Desktop_OpenGL_2_0"
    ∧ (∀ fname ps qs, ps = qs → providersSorted fname ps = providersSorted fname qs) :=
  ⟨fun _ _ _ _ _ _ _ => rfl, by decide, fun _ _ _ h => by rw [h]⟩

/-- Witness for C8 at concrete providers and lists. -/
theorem c8_provider_identifier_deterministic_witness :
    (mkProvider "epoxy_conservative_glx_version() >= 13" "GLX 1.3" "ldrA" "glXA").enum
      = (mkProvider "other condition" "GLX 1.3" "ldrB" "glXB").enum
    ∧ providersSorted "glXA" [mkProvider "c" "GLX 1.3" "l" "glXA"]
      = providersSorted "glXA" [mkProvider "c" "GLX 1.3" "l" "glXA"] :=
  ⟨c8_provider_identifier_deterministic.1 _ _ _ _ _ _ _,
   c8_provider_identifier_deterministic.2.2 "glXA" _ _ rfl⟩

theorem keys_dictInsert (k : String) (v : α) : ∀ m : List (String × α),
    (dictInsert k v m).map Prod.fst =
      if k ∈ m.map Prod.fst then m.map Prod.fst else m.map Prod.fst ++ [k] := by
  intro m
  induction m with
  | nil => simp [dictInsert]
  | cons kv t ih =>
    obtain ⟨k', v'⟩ := kv
    by_cases hk : k' = k
    · subst hk
      simp [dictInsert]
    · have hkk : k ≠ k' := fun h => hk h.symm
      simp only [dictInsert, if_neg hk, List.map_cons, ih]
      by_cases hmem : k ∈ t.map Prod.fst
      · rw [if_pos hmem, if_pos (List.mem_cons_of_mem _ hmem)]
      · rw [if_neg hmem, if_neg (by simp [hkk, hmem])]
        simp

theorem lookup_dictInsert_self (k : String) (v : α) : ∀ m : List (String × α),
    (dictInsert k v m).lookup k = some v := by
  intro m
  induction m with
  | nil => simp [dictInsert, List.lookup]
  | cons kv t ih =>
    obtain ⟨k', v'⟩ := kv
    by_cases hk : k' = k
    · subst hk
      simp [dictInsert, List.lookup]
    · have hbeq : (k == k') = false := beq_eq_false_iff_ne.mpr fun h => hk h.symm
      simp [dictInsert, if_neg hk, List.lookup, hbeq, ih]

theorem lookup_dictInsert_ne (k k' : String) (v : α) (h : k' ≠ k) :
    ∀ m : List (String × α), (dictInsert k v m).lookup k' = m.lookup k' := by
  intro m
  have hbeq : (k' == k) = false := beq_eq_false_iff_ne.mpr h
  induction m with
  | nil => simp [dictInsert, List.lookup, hbeq]
  | cons kv t ih =>
    obtain ⟨k0, v0⟩ := kv
    by_cases hk : k0 = k
    · subst hk
      simp [dictInsert, List.lookup, hbeq]
    · cases hb : k' == k0 <;> simp [dictInsert, if_neg hk, List.lookup, hb, ih]

/-- C10: attaching a provider binding under a condition label already
bound on the same function replaces the earlier binding in place — the
key order is unchanged, exactly one binding remains under that label
and it carries the later call's condition and loader — and
`add_provider` raises no fault whether or not the texts differ; other
labels are untouched. -/
theorem c10_add_provider_replaces (f : GLFunction) (c1 l1 c2 l2 lab : String)
    (hnd : (f.providers.map Prod.fst).Nodup) :
    ((f.add_provider c1 l1 lab).add_provider c2 l2 lab).providers.map Prod.fst
        = (f.add_provider c1 l1 lab).providers.map Prod.fst
    ∧ ((f.add_provider c1 l1 lab).add_provider c2 l2 lab).providers.lookup lab
        = some (mkProvider c2 lab l2 f.name)
    ∧ (((f.add_provider c1 l1 lab).add_provider c2 l2 lab).providers.map Prod.fst).count lab
        = 1
    ∧ ∀ k, k ≠ lab →
        ((f.add_provider c1 l1 lab).add_provider c2 l2 lab).providers.lookup k
          = (f.add_provider c1 l1 lab).providers.lookup k := by
  have hmem1 : lab ∈ ((f.add_provider c1 l1 lab).providers.map Prod.fst) := by
    rw [GLFunction.add_provider, keys_dictInsert]
    by_cases hmem : lab ∈ f.providers.map Prod.fst
    · simpa [hmem] using hmem
    · simp [hmem]
  have hkeys2 : ((f.add_provider c1 l1 lab).add_provider c2 l2 lab).providers.map Prod.fst
      = (f.add_provider c1 l1 lab).providers.map Prod.fst := by
    conv_lhs => rw [GLFunction.add_provider]
    rw [keys_dictInsert, if_pos hmem1]
  refine ⟨hkeys2, ?_, ?_, ?_⟩
  · rw [show ((f.add_provider c1 l1 lab).add_provider c2 l2 lab).providers
        = dictInsert lab (mkProvider c2 lab l2 (f.add_provider c1 l1 lab).name)
            (f.add_provider c1 l1 lab).providers from rfl]
    rw [lookup_dictInsert_self]
    rfl
  · rw [hkeys2, GLFunction.add_provider, keys_dictInsert]
    by_cases hmem : lab ∈ f.providers.map Prod.fst
    · rw [if_pos hmem]
      exact List.count_eq_one_of_mem hnd hmem
    · rw [if_neg hmem]
      rw [List.count_append]
      rw [List.count_eq_zero_of_not_mem hmem]
      simp
  · intro k hk
    rw [show ((f.add_provider c1 l1 lab).add_provider c2 l2 lab).providers
        = dictInsert lab (mkProvider c2 lab l2 (f.add_provider c1 l1 lab).name)
            (f.add_provider c1 l1 lab).providers from rfl]
    rw [lookup_dictInsert_ne _ _ _ hk]

/-- Witness for C10: adding twice under label `B` on a function that
already has a binding under `A` keeps one `B` binding holding the later
condition and loader. -/
theorem c10_add_provider_replaces_witness :
    ((((mkGLFunction "glX").add_provider "c0" "l0" "A").add_provider "c1" "l1" "B"
        ).add_provider "c2" "l2" "B").providers.lookup "B"
      = some (mkProvider "c2" "B" "l2" "glX") :=
  (c10_add_provider_replaces ((mkGLFunction "glX").add_provider "c0" "l0" "A")
    "c1" "l1" "c2" "l2" "B" (by decide)).2.1

theorem prepGo_mono_and_mem : ∀ (ps : List GLProvider)
    (acc fin : List (String × String × String × String)),
    prepGo ps acc = some fin →
    (∀ k v, acc.lookup k = some v → fin.lookup k = some v)
    ∧ ∀ p ∈ ps, ∃ e, fin.lookup p.condition_name = some (e, p.condition, p.loader) := by
  intro ps
  induction ps with
  | nil =>
    intro acc fin h
    simp only [prepGo, Option.some.injEq] at h
    subst h
    exact ⟨fun _ _ hv => hv, by simp⟩
  | cons p t ih =>
    intro acc fin h
    simp only [prepGo] at h
    cases hl : acc.lookup p.condition_name with
    | some w =>
      obtain ⟨e, c, l⟩ := w
      simp only [hl] at h
      by_cases hcl : c = p.condition ∧ l = p.loader
      · rw [if_pos hcl] at h
        obtain ⟨hmono, hmem⟩ := ih acc fin h
        refine ⟨hmono, ?_⟩
        intro q hq
        rcases List.mem_cons.mp hq with hq | hq
        · subst hq
          exact ⟨e, by rw [hmono _ _ hl, hcl.1, hcl.2]⟩
        · exact hmem q hq
      · rw [if_neg hcl] at h
        exact absurd h (by simp)
    | none =>
      simp only [hl] at h
      have hstep : ∀ k v, acc.lookup k = some v →
          (acc ++ [(p.condition_name, p.enum, p.condition, p.loader)]).lookup k = some v := by
        intro k v hv
        rw [List.lookup_append, hv]
        rfl
      have hself : (acc ++ [(p.condition_name, p.enum, p.condition, p.loader)]).lookup
          p.condition_name = some (p.enum, p.condition, p.loader) := by
        rw [List.lookup_append, hl]
        simp [List.lookup]
      obtain ⟨hmono, hmem⟩ := ih _ fin h
      refine ⟨fun k v hv => hmono _ _ (hstep _ _ hv), ?_⟩
      intro q hq
      rcases List.mem_cons.mp hq with hq | hq
      · subst hq
        exact ⟨q.enum, hmono _ _ hself⟩
      · exact hmem q hq

/-- C4: if provider interning succeeds, any two bindings anywhere in
the model that share a condition label carry identical condition and
loader text; and a model containing two same-label bindings whose
condition or loader text differs makes `prepare_provider_enum` fail the
Python `assert` — a hard generation-time fault. -/
theorem c4_provider_interning (funcs : FMap) :
    (∀ fin, prepare_provider_enum funcs = some fin →
      ∀ p ∈ allProviders funcs, ∀ q ∈ allProviders funcs,
        p.condition_name = q.condition_name →
        p.condition = q.condition ∧ p.loader = q.loader)
    ∧ (∀ p ∈ allProviders funcs, ∀ q ∈ allProviders funcs,
        p.condition_name = q.condition_name →
        p.condition ≠ q.condition ∨ p.loader ≠ q.loader →
        prepare_provider_enum funcs = none) := by
  have hmain : ∀ fin, prepare_provider_enum funcs = some fin →
      ∀ p ∈ allProviders funcs, ∀ q ∈ allProviders funcs,
        p.condition_name = q.condition_name →
        p.condition = q.condition ∧ p.loader = q.loader := by
    intro fin hfin p hp q hq hlab
    obtain ⟨_, hmem⟩ := prepGo_mono_and_mem (allProviders funcs) [] fin hfin
    obtain ⟨e1, h1⟩ := hmem p hp
    obtain ⟨e2, h2⟩ := hmem q hq
    rw [hlab, h2] at h1
    simp only [Option.some.injEq, Prod.mk.injEq] at h1
    exact ⟨h1.2.1.symm, h1.2.2.symm⟩
  refine ⟨hmain, ?_⟩
  intro p hp q hq hlab hne
  cases hres : prepare_provider_enum funcs with
  | none => rfl
  | some fin =>
    obtain ⟨hc, hl⟩ := hmain fin hres p hp q hq hlab
    rcases hne with hne | hne
    · exact absurd hc hne
    · exact absurd hl hne

theorem mem_keys_of_lookup {α : Type} {m : List (String × α)} {k : String} {v : α}
    (h : m.lookup k = some v) : k ∈ m.map Prod.fst := by
  induction m with
  | nil => simp [List.lookup] at h
  | cons kv t ih =>
    obtain ⟨k0, v0⟩ := kv
    cases hb : k == k0 with
    | true =>
      simp only [List.map_cons, List.mem_cons]
      exact Or.inl (beq_iff_eq.mp hb)
    | false =>
      simp only [List.lookup, hb] at h
      exact List.mem_cons_of_mem _ (ih h)

/-- Witness for C4: a model in which two functions bind the same label
`GLX 1.3` with different condition text makes provider interning fail
hard. -/
theorem c4_provider_interning_witness :
    prepare_provider_enum
      [("glA", { mkGLFunction "glA" with
          providers := [("GLX 1.3", mkProvider "condX" "GLX 1.3" "ldr" "glA")] }),
       ("glB", { mkGLFunction "glB" with
          providers := [("GLX 1.3", mkProvider "condY" "GLX 1.3" "ldr" "glB")] })]
      = none :=
  (c4_provider_interning _).2
    (mkProvider "condX" "GLX 1.3" "ldr" "glA") (by decide)
    (mkProvider "condY" "GLX 1.3" "ldr" "glB") (by decide)
    rfl (Or.inl (by decide))

/-- C7: the near-alias compatibility table is symmetric, and whenever
candidate gathering succeeds for a function named in the table, every
provider binding of its near-alias partner is among the gathered
candidates — no alias relation between the two is required. -/
theorem c7_half_alias_fallback :
    (∀ pair ∈ half_aliases, (pair.2, pair.1) ∈ half_aliases)
    ∧ ∀ (funcs : FMap) (f : GLFunction) (partner : String) (pf : GLFunction)
        (ps : List GLProvider),
        half_aliases.lookup f.name = some partner →
        funcs.lookup partner = some pf →
        gatherProviders funcs f = some ps →
        ∀ p ∈ pf.providers.map Prod.snd, p ∈ ps := by
  constructor
  · decide
  · intro funcs f partner pf ps hhalf hpf hg p hp
    unfold gatherProviders at hg
    cases hroot : (match f.alias_func with
        | some rn => funcs.lookup rn
        | none => some f) with
    | none =>
      simp only [hroot] at hg
      exact Option.noConfusion hg
    | some root =>
      simp only [hroot] at hg
      cases hexts : root.alias_exts.mapM funcs.lookup with
      | none =>
        simp only [hexts] at hg
        exact Option.noConfusion hg
      | some exts =>
        simp only [hexts, hhalf, hpf, Option.map_some', Option.some.injEq] at hg
        subst hg
        simp only [List.mem_append]
        exact Or.inr hp

/-- Witness for C7: gathering for `glBindVertexArray` includes the
provider binding attached only to `glBindVertexArrayAPPLE`. -/
theorem c7_half_alias_fallback_witness :
    mkProvider "c2" "GL_APPLE_vertex_array_object" "l2" "glBindVertexArrayAPPLE"
      ∈ [mkProvider "c1" "Desktop OpenGL 3.0" "l1" "glBindVertexArray",
         mkProvider "c2" "GL_APPLE_vertex_array_object" "l2" "glBindVertexArrayAPPLE"] :=
  (c7_half_alias_fallback.2
    [("glBindVertexArray",
      { mkGLFunction "glBindVertexArray" with
        providers := [("Desktop OpenGL 3.0",
          mkProvider "c1" "Desktop OpenGL 3.0" "l1" "glBindVertexArray")] }),
     ("glBindVertexArrayAPPLE",
      { mkGLFunction "glBindVertexArrayAPPLE" with
        providers := [("GL_APPLE_vertex_array_object",
          mkProvider "c2" "GL_APPLE_vertex_array_object" "l2" "glBindVertexArrayAPPLE")] })]
    ({ mkGLFunction "glBindVertexArray" with
        providers := [("Desktop OpenGL 3.0",
          mkProvider "c1" "Desktop OpenGL 3.0" "l1" "glBindVertexArray")] })
    "glBindVertexArrayAPPLE"
    ({ mkGLFunction "glBindVertexArrayAPPLE" with
        providers := [("GL_APPLE_vertex_array_object",
          mkProvider "c2" "GL_APPLE_vertex_array_object" "l2" "glBindVertexArrayAPPLE")] })
    _ (by decide) (by decide) (by decide) _ (by decide))

/-- C6: on a registry whose alias chains form a cycle
(`glA` aliases `glB`, `glB` aliases `glA`), the chain walk of
`resolve_aliases` never reaches a self-naming function no matter how
many steps it is allowed — the Python `while` loop never exits, so
alias resolution loops forever rather than aborting with the
descriptive message the claim (and the spec's error-handling design)
requires. -/
theorem c6_cycle_divergence :
    (∀ fuel, findRoot
        [("glA", ⟨"glA", [], "glB", none, [], []⟩),
         ("glB", ⟨"glB", [], "glA", none, [], []⟩)] fuel "glA" = none)
    ∧ resolve_aliases
        [("glA", ⟨"glA", [], "glB", none, [], []⟩),
         ("glB", ⟨"glB", [], "glA", none, [], []⟩)] = none := by
  have key : ∀ fuel,
      findRoot
        [("glA", ⟨"glA", [], "glB", none, [], []⟩),
         ("glB", ⟨"glB", [], "glA", none, [], []⟩)] fuel "glA" = none
      ∧ findRoot
        [("glA", ⟨"glA", [], "glB", none, [], []⟩),
         ("glB", ⟨"glB", [], "glA", none, [], []⟩)] fuel "glB" = none := by
    intro fuel
    induction fuel with
    | zero => exact ⟨rfl, rfl⟩
    | succ k ih => exact ⟨ih.2, ih.1⟩
  exact ⟨fun fuel => (key fuel).1, by decide⟩

theorem lookup_eq_none_of_not_mem {α : Type} {m : List (String × α)} {k : String}
    (h : k ∉ m.map Prod.fst) : m.lookup k = none := by
  cases hl : m.lookup k with
  | none => rfl
  | some v => exact absurd (mem_keys_of_lookup hl) h

theorem drop_weird_no_weird : ∀ (m : FMap) (n : String) (f : GLFunction),
    (drop_weird_glx_functions m).lookup n = some f →
    strContains f.args_decl "VLServer" = false
      ∧ strContains f.args_decl "DMparams" = false := by
  intro m
  induction m with
  | nil =>
    intro n f h
    simp [drop_weird_glx_functions, List.lookup] at h
  | cons kv t ih =>
    intro n f h
    obtain ⟨k0, g⟩ := kv
    simp only [drop_weird_glx_functions, List.filter_cons] at h
    by_cases hkeep :
        (!(strContains g.args_decl "VLServer" || strContains g.args_decl "DMparams")) = true
    · rw [if_pos hkeep] at h
      cases hb : n == k0 with
      | true =>
        simp only [List.lookup, hb] at h
        obtain rfl : g = f := by injection h
        have hX : (strContains g.args_decl "VLServer"
            || strContains g.args_decl "DMparams") = false := by
          simpa using hkeep
        exact ⟨(Bool.or_eq_false_iff.mp hX).1, (Bool.or_eq_false_iff.mp hX).2⟩
      | false =>
        simp only [List.lookup, hb] at h
        exact ih n f (by simp only [drop_weird_glx_functions]; exact h)
    · rw [if_neg hkeep] at h
      exact ih n f (by simp only [drop_weird_glx_functions]; exact h)

theorem lookup_mapErase_none {α : Type} {m : List (String × α)} {k n : String}
    (h : m.lookup n = none) : (mapErase k m).lookup n = none := by
  induction m with
  | nil => rfl
  | cons kv t ih =>
    obtain ⟨k0, v⟩ := kv
    cases hb : n == k0 with
    | true =>
      simp only [List.lookup, hb] at h
      exact Option.noConfusion h
    | false =>
      simp only [List.lookup, hb] at h
      by_cases hk : k0 = k
      · rw [mapErase, if_pos hk]
        exact h
      · rw [mapErase, if_neg hk]
        simp only [List.lookup, hb]
        exact ih h

theorem lookup_mapErase_self {m : List (String × GLFunction)} {n : String}
    (hnd : (m.map Prod.fst).Nodup) : (mapErase n m).lookup n = none := by
  induction m with
  | nil => rfl
  | cons kv t ih =>
    obtain ⟨k0, v⟩ := kv
    simp only [List.map_cons, List.nodup_cons] at hnd
    by_cases hk : k0 = n
    · rw [mapErase, if_pos hk]
      subst hk
      exact lookup_eq_none_of_not_mem hnd.1
    · rw [mapErase, if_neg hk]
      have hb : (n == k0) = false := beq_eq_false_iff_ne.mpr fun h => hk h.symm
      simp only [List.lookup, hb]
      exact ih hnd.2

theorem keys_mapErase_sublist {α : Type} (k : String) (m : List (String × α)) :
    List.Sublist ((mapErase k m).map Prod.fst) (m.map Prod.fst) := by
  induction m with
  | nil => simp [mapErase]
  | cons kv t ih =>
    obtain ⟨k0, v⟩ := kv
    by_cases hk : k0 = k
    · rw [mapErase, if_pos hk]
      exact List.sublist_cons_self _ _
    · rw [mapErase, if_neg hk]
      simpa using ih.cons₂ k0

theorem nodup_keys_mapErase {α : Type} {m : List (String × α)} (k : String)
    (hnd : (m.map Prod.fst).Nodup) : ((mapErase k m).map Prod.fst).Nodup :=
  hnd.sublist (keys_mapErase_sublist k m)

theorem nodup_keys_dictInsert {α : Type} {m : List (String × α)} (k : String) (v : α)
    (hnd : (m.map Prod.fst).Nodup) : ((dictInsert k v m).map Prod.fst).Nodup := by
  rw [keys_dictInsert]
  by_cases hmem : k ∈ m.map Prod.fst
  · rwa [if_pos hmem]
  · rw [if_neg hmem]
    simp [List.nodup_append, hnd, hmem]

theorem process_require_wgl_not_added : ∀ (cmds : List String) (cond ldr hn : String)
    (m m' : FMap) (n : String),
    process_require_statements "wgl" cmds cond ldr hn m = some m' →
    m.lookup n = none → m'.lookup n = none := by
  intro cmds
  induction cmds with
  | nil =>
    intro cond ldr hn m m' n h hnone
    simp only [process_require_statements, Option.some.injEq] at h
    subst h
    exact hnone
  | cons c rest ih =>
    intro cond ldr hn m m' n h hnone
    simp only [process_require_statements, true_and] at h
    by_cases hc : strContains c "wgl" = false
    · rw [if_pos hc] at h
      by_cases hsome : (m.lookup c).isSome
      · rw [if_pos hsome] at h
        exact ih _ _ _ _ _ _ h (lookup_mapErase_none hnone)
      · rw [if_neg hsome] at h
        exact Option.noConfusion h
    · rw [if_neg hc] at h
      cases hl : m.lookup c with
      | none =>
        rw [hl] at h
        exact Option.noConfusion h
      | some f =>
        simp only [hl] at h
        refine ih _ _ _ _ _ _ h ?_
        by_cases hnc : n = c
        · subst hnc
          rw [hl] at hnone
          exact Option.noConfusion hnone
        · rw [lookup_dictInsert_ne _ _ _ hnc]
          exact hnone

theorem process_require_wgl_drops : ∀ (cmds : List String) (cond ldr hn : String)
    (m m' : FMap) (n : String),
    (m.map Prod.fst).Nodup →
    process_require_statements "wgl" cmds cond ldr hn m = some m' →
    n ∈ cmds → strContains n "wgl" = false → m'.lookup n = none := by
  intro cmds
  induction cmds with
  | nil =>
    intro _ _ _ _ _ _ _ _ hmem _
    exact absurd hmem (List.not_mem_nil _)
  | cons c rest ih =>
    intro cond ldr hn m m' n hnd h hmem hwgl
    simp only [process_require_statements, true_and] at h
    by_cases hnc : n = c
    · subst hnc
      rw [if_pos hwgl] at h
      by_cases hsome : (m.lookup n).isSome
      · rw [if_pos hsome] at h
        exact process_require_wgl_not_added _ _ _ _ _ _ _ h (lookup_mapErase_self hnd)
      · rw [if_neg hsome] at h
        exact Option.noConfusion h
    · have hmem' : n ∈ rest := by
        rcases List.mem_cons.mp hmem with h' | h'
        · exact absurd h' hnc
        · exact h'
      by_cases hc : strContains c "wgl" = false
      · rw [if_pos hc] at h
        by_cases hsome : (m.lookup c).isSome
        · rw [if_pos hsome] at h
          exact ih _ _ _ _ _ _ (nodup_keys_mapErase c hnd) h hmem' hwgl
        · rw [if_neg hsome] at h
          exact Option.noConfusion h
      · rw [if_neg hc] at h
        cases hl : m.lookup c with
        | none =>
          rw [hl] at h
          exact Option.noConfusion h
        | some f =>
          simp only [hl] at h
          exact ih _ _ _ _ _ _ (nodup_keys_dictInsert c _ hnd) h hmem' hwgl

/-- C9 (counterexample): the claim says dropped commands receive no
provider bindings because the drops happen before any provider is
attached; but `main` runs `drop_weird_glx_functions` only after
`parse` (which attaches providers).  A glx command with a `VLServer`
parameter that a feature requires holds a provider binding labelled
`GLX 1.3` right after the require pass, and is only then dropped. -/
theorem c9_counterexample :
    (process_require_statements "glx" ["glXWeird"] "cond13" "ldr13" "GLX 1.3"
        [("glXWeird", (mkGLFunction "glXWeird").add_arg "VLServer" "srv")]).map
      (fun m => (m.lookup "glXWeird").map fun f => f.providers.map Prod.fst)
      = some (some ["GLX 1.3"])
    ∧ (process_require_statements "glx" ["glXWeird"] "cond13" "ldr13" "GLX 1.3"
        [("glXWeird", (mkGLFunction "glXWeird").add_arg "VLServer" "srv")]).map
        drop_weird_glx_functions
      = some [] := by decide

/-- C9 (amended): after `drop_weird_glx_functions` runs (which `main`
does after provider attachment, not before), no surviving command
references the `VLServer`/`DMparams` platform types, so dropped
commands appear in no output even though they may briefly have held
bindings; and on the `wgl` target a required command whose name does
not contain `wgl` (a substring test, not a prefix test) is deleted at
the moment it is first required, before any provider is attached to
it, and is absent from the resulting table. -/
theorem c9_command_filters :
    (∀ (m : FMap) (n : String) (f : GLFunction),
      (drop_weird_glx_functions m).lookup n = some f →
      strContains f.args_decl "VLServer" = false
        ∧ strContains f.args_decl "DMparams" = false)
    ∧ (∀ (cmds : List String) (cond ldr hn : String) (m m' : FMap) (n : String),
        (m.map Prod.fst).Nodup →
        process_require_statements "wgl" cmds cond ldr hn m = some m' →
        n ∈ cmds → strContains n "wgl" = false → m'.lookup n = none) :=
  ⟨drop_weird_no_weird, process_require_wgl_drops⟩

/-- Witness for C9 at a concrete surviving command and a concrete
dropped `wgl`-target command. -/
theorem c9_command_filters_witness :
    (strContains (((mkGLFunction "wglDummy").add_arg "HDC" "dc").args_decl) "VLServer" = false
      ∧ strContains (((mkGLFunction "wglDummy").add_arg "HDC" "dc").args_decl) "DMparams"
        = false)
    ∧ ([] : FMap).lookup "ChoosePixelFormat" = none :=
  ⟨c9_command_filters.1 [("wglDummy", (mkGLFunction "wglDummy").add_arg "HDC" "dc")]
      "wglDummy" ((mkGLFunction "wglDummy").add_arg "HDC" "dc") (by decide),
   c9_command_filters.2 ["ChoosePixelFormat"] "true" "ld" "WGL 10"
      [("ChoosePixelFormat", mkGLFunction "ChoosePixelFormat")] [] "ChoosePixelFormat"
      (by decide) (by decide) (by decide) (by decide)⟩

theorem lookup_eq_some_mem {α : Type} {m : List (String × α)} {k : String} {v : α}
    (h : m.lookup k = some v) : (k, v) ∈ m := by
  induction m with
  | nil => exact Option.noConfusion h
  | cons kv t ih =>
    obtain ⟨k0, v0⟩ := kv
    cases hb : k == k0 with
    | true =>
      simp only [List.lookup, hb] at h
      obtain rfl : v0 = v := by injection h
      obtain rfl : k = k0 := beq_iff_eq.mp hb
      exact List.mem_cons_self _ _
    | false =>
      simp only [List.lookup, hb] at h
      exact List.mem_cons_of_mem _ (ih h)

theorem keysMatch_of_forall_mem {m : FMap} (h : ∀ kv ∈ m, kv.2.name = kv.1) :
    KeysMatch m :=
  fun k f hl => h (k, f) (lookup_eq_some_mem hl)

theorem map_fst_mapModify {α : Type} (k : String) (g : α → α) :
    ∀ m : List (String × α), (mapModify k g m).map Prod.fst = m.map Prod.fst := by
  intro m
  induction m with
  | nil => rfl
  | cons kv t ih =>
    obtain ⟨k0, v⟩ := kv
    by_cases hk : k0 = k
    · rw [mapModify, if_pos hk]
      simp
    · rw [mapModify, if_neg hk]
      simp only [List.map_cons, ih]

theorem lookup_mapModify_self {α : Type} (k : String) (g : α → α) :
    ∀ m : List (String × α), (mapModify k g m).lookup k = (m.lookup k).map g := by
  intro m
  induction m with
  | nil => rfl
  | cons kv t ih =>
    obtain ⟨k0, v⟩ := kv
    by_cases hk : k0 = k
    · subst hk
      rw [mapModify, if_pos rfl]
      simp [List.lookup]
    · have hb : (k == k0) = false := beq_eq_false_iff_ne.mpr fun e => hk e.symm
      rw [mapModify, if_neg hk]
      simp only [List.lookup, hb, ih]

theorem lookup_mapModify_ne {α : Type} (k k' : String) (g : α → α) (h : k' ≠ k) :
    ∀ m : List (String × α), (mapModify k g m).lookup k' = m.lookup k' := by
  intro m
  induction m with
  | nil => rfl
  | cons kv t ih =>
    obtain ⟨k0, v⟩ := kv
    by_cases hk : k0 = k
    · subst hk
      have hb : (k' == k0) = false := beq_eq_false_iff_ne.mpr h
      rw [mapModify, if_pos rfl]
      simp only [List.lookup, hb]
    · rw [mapModify, if_neg hk]
      cases hb : k' == k0 <;> simp only [List.lookup, hb, ih]

theorem keysMatch_mapModify {m : FMap} {k : String} {g : GLFunction → GLFunction}
    (hg : ∀ x, (g x).name = x.name) (hkm : KeysMatch m) : KeysMatch (mapModify k g m) := by
  intro k' f' h
  by_cases hk : k' = k
  · subst hk
    rw [lookup_mapModify_self] at h
    cases hl : m.lookup k' with
    | none => rw [hl] at h; exact Option.noConfusion h
    | some f0 =>
      rw [hl] at h
      obtain rfl : g f0 = f' := by injection h
      rw [hg f0]
      exact hkm _ _ hl
  · rw [lookup_mapModify_ne _ _ _ hk] at h
    exact hkm _ _ h

theorem countExts_mapModify_keep (k : String) {g : GLFunction → GLFunction}
    (hg : ∀ x, (g x).alias_exts = x.alias_exts) (x : String) :
    ∀ m : FMap, countExts (mapModify k g m) x = countExts m x := by
  intro m
  induction m with
  | nil => rfl
  | cons kv t ih =>
    obtain ⟨k0, v⟩ := kv
    by_cases hk : k0 = k
    · rw [mapModify, if_pos hk]
      simp only [countExts, List.map_cons, List.sum_cons, hg v]
    · rw [mapModify, if_neg hk]
      simp only [countExts, List.map_cons, List.sum_cons] at ih ⊢
      rw [ih]

theorem countExts_mapModify_app (r n x : String) :
    ∀ m : FMap, (m.lookup r).isSome = true →
      countExts (mapModify r (fun g => { g with alias_exts := g.alias_exts ++ [n] }) m) x
        = countExts m x + if x = n then 1 else 0 := by
  intro m
  induction m with
  | nil => intro h; exact absurd h (by simp [List.lookup])
  | cons kv t ih =>
    intro h
    obtain ⟨k0, v⟩ := kv
    by_cases hk : k0 = r
    · rw [mapModify, if_pos hk]
      simp only [countExts, List.map_cons, List.sum_cons, List.count_append]
      have hsingle : List.count x [n] = if x = n then 1 else 0 := by
        by_cases hxn : x = n
        · subst hxn; simp
        · simp [List.count_singleton', hxn]
      rw [hsingle]
      omega
    · rw [mapModify, if_neg hk]
      have hb : (r == k0) = false := beq_eq_false_iff_ne.mpr fun e => hk e.symm
      simp only [List.lookup, hb] at h
      simp only [countExts, List.map_cons, List.sum_cons] at ih ⊢
      rw [ih h]
      omega

theorem findRoot_isRoot {m : FMap} : ∀ (fuel : Nat) (s r : String),
    findRoot m fuel s = some r → IsRoot m r := by
  intro fuel
  induction fuel with
  | zero => intro s r h; exact Option.noConfusion h
  | succ k ih =>
    intro s r h
    rw [findRoot] at h
    cases hl : m.lookup s with
    | none =>
      simp only [hl] at h
      exact Option.noConfusion h
    | some f =>
      simp only [hl] at h
      by_cases hr : f.alias_name = f.name
      · rw [if_pos hr] at h
        obtain rfl : s = r := by injection h
        exact ⟨f, hl, hr⟩
      · rw [if_neg hr] at h
        exact ih _ _ h

theorem isRoot_iff_pair {m m' : FMap} (x : String)
    (h : (m'.lookup x).map (fun g => (g.alias_name, g.name))
       = (m.lookup x).map (fun g => (g.alias_name, g.name))) :
    IsRoot m x ↔ IsRoot m' x := by
  constructor
  · rintro ⟨g, hg, hroot⟩
    rw [hg] at h
    cases hl : m'.lookup x with
    | none => rw [hl] at h; exact Option.noConfusion h
    | some g' =>
      rw [hl] at h
      simp only [Option.map_some', Option.some.injEq, Prod.mk.injEq] at h
      exact ⟨g', hl, by rw [h.1, h.2, hroot]⟩
  · rintro ⟨g', hg', hroot⟩
    rw [hg'] at h
    cases hl : m.lookup x with
    | none => rw [hl] at h; exact Option.noConfusion h
    | some g =>
      rw [hl] at h
      simp only [Option.map_some', Option.some.injEq, Prod.mk.injEq] at h
      exact ⟨g, hl, by rw [← h.1, ← h.2, hroot]⟩

theorem countExts_zero {m : FMap}
    (hexts : ∀ kv ∈ m, kv.2.alias_exts = ([] : List String)) (x : String) :
    countExts m x = 0 := by
  rw [countExts]
  apply List.sum_eq_zero
  intro y hy
  obtain ⟨kv, hkv, rfl⟩ := List.mem_map.mp hy
  rw [hexts kv hkv]
  rfl

theorem resolveStep_props {m m' : FMap} {n : String}
    (hkm : KeysMatch m) (h : resolveStep m n = some m') :
    (m'.map Prod.fst = m.map Prod.fst)
    ∧ KeysMatch m'
    ∧ (∀ k, k ≠ n →
        (m'.lookup k).map (fun g => (g.alias_name, g.name))
          = (m.lookup k).map (fun g => (g.alias_name, g.name)))
    ∧ (∀ x, IsRoot m x ↔ IsRoot m' x)
    ∧ (∃ f', m'.lookup n = some f' ∧ IsRoot m' f'.alias_name)
    ∧ (IsRoot m n → ∀ x, countExts m' x = countExts m x)
    ∧ (¬ IsRoot m n → ∀ x, countExts m' x = countExts m x + if x = n then 1 else 0)
    ∧ (∀ k g', m'.lookup k = some g' → g'.alias_exts ≠ [] →
        (∃ g, m.lookup k = some g ∧ g.alias_exts ≠ []) ∨ IsRoot m k) := by
  rw [resolveStep] at h
  cases hf : m.lookup n with
  | none =>
    simp only [hf] at h
    exact Option.noConfusion h
  | some f =>
    simp only [hf] at h
    by_cases hroot : f.alias_name = f.name
    · rw [if_pos hroot] at h
      obtain rfl : m = m' := by injection h
      have hisr : IsRoot m n := ⟨f, hf, hroot⟩
      refine ⟨rfl, hkm, fun k _ => rfl, fun x => Iff.rfl, ⟨f, hf, ?_⟩,
        fun _ _ => rfl, fun hc => absurd hisr hc, fun k g' hg' hne => Or.inl ⟨g', hg', hne⟩⟩
      have hfn : f.alias_name = n := by rw [hroot]; exact hkm _ _ hf
      rw [hfn]
      exact hisr
    · rw [if_neg hroot] at h
      cases hfind : findRoot m (m.length + 1) f.alias_name with
      | none =>
        simp only [hfind] at h
        exact Option.noConfusion h
      | some r =>
        simp only [hfind, Option.some.injEq] at h
        obtain ⟨gr, hgr, hgroot⟩ := findRoot_isRoot _ _ _ hfind
        have hnotr : ¬ IsRoot m n := by
          rintro ⟨g, hg, hgr'⟩
          rw [hf] at hg
          obtain rfl : f = g := by injection hg
          exact hroot hgr'
        have hrn : r ≠ n := by
          intro e
          subst e
          rw [hf] at hgr
          obtain rfl : f = gr := by injection hgr
          exact hroot hgroot
        have hnr : n ≠ r := fun e => hrn e.symm
        subst h
        have hlkn : (mapModify r (fun g => { g with alias_exts := g.alias_exts ++ [n] })
              (mapModify n (fun g => { g with alias_name := r, alias_func := some r }) m)
            ).lookup n = some { f with alias_name := r, alias_func := some r } := by
          rw [lookup_mapModify_ne r n _ hnr, lookup_mapModify_self, hf]
          rfl
        have hlkr : (mapModify r (fun g => { g with alias_exts := g.alias_exts ++ [n] })
              (mapModify n (fun g => { g with alias_name := r, alias_func := some r }) m)
            ).lookup r = some { gr with alias_exts := gr.alias_exts ++ [n] } := by
          rw [lookup_mapModify_self, lookup_mapModify_ne n r _ hrn, hgr]
          rfl
        have hlko : ∀ k, k ≠ n → k ≠ r →
            (mapModify r (fun g => { g with alias_exts := g.alias_exts ++ [n] })
              (mapModify n (fun g => { g with alias_name := r, alias_func := some r }) m)
            ).lookup k = m.lookup k := by
          intro k h1 h2
          rw [lookup_mapModify_ne r k _ h2, lookup_mapModify_ne n k _ h1]
        have hpair : ∀ k, k ≠ n →
            ((mapModify r (fun g => { g with alias_exts := g.alias_exts ++ [n] })
              (mapModify n (fun g => { g with alias_name := r, alias_func := some r }) m)
            ).lookup k).map (fun g => (g.alias_name, g.name))
              = (m.lookup k).map (fun g => (g.alias_name, g.name)) := by
          intro k hk
          by_cases hkr : k = r
          · subst hkr
            rw [hlkr, hgr]
            rfl
          · rw [hlko k hk hkr]
        have hiff : ∀ x, IsRoot m x ↔ IsRoot
            (mapModify r (fun g => { g with alias_exts := g.alias_exts ++ [n] })
              (mapModify n (fun g => { g with alias_name := r, alias_func := some r }) m)) x := by
          intro x
          by_cases hx : x = n
          · have hfn : f.name = n := hkm n f hf
            subst hx
            refine iff_of_false hnotr ?_
            rintro ⟨g', hg', hgr'⟩
            rw [hlkn] at hg'
            obtain rfl : { f with alias_name := r, alias_func := some r } = g' := by
              injection hg'
            exact hrn ((show r = f.name from hgr').trans hfn)
          · exact isRoot_iff_pair x (hpair x hx)
        refine ⟨?_, ?_, hpair, hiff, ?_, fun hc _ => absurd hc hnotr, ?_, ?_⟩
        · rw [map_fst_mapModify, map_fst_mapModify]
        · exact keysMatch_mapModify (fun x => rfl)
            (keysMatch_mapModify (fun x => rfl) hkm)
        · exact ⟨{ f with alias_name := r, alias_func := some r }, hlkn,
            (hiff r).mp ⟨gr, hgr, hgroot⟩⟩
        · intro _ x
          rw [countExts_mapModify_app r n x _
              (by rw [lookup_mapModify_ne n r _ hrn, hgr]; rfl),
            @countExts_mapModify_keep n
              (fun g => { g with alias_name := r, alias_func := some r })
              (fun _ => rfl) x]
        · intro k g' hg' hne
          by_cases hkn : k = n
          · subst hkn
            rw [hlkn] at hg'
            obtain rfl : { f with alias_name := r, alias_func := some r } = g' := by
              injection hg'
            exact Or.inl ⟨f, hf, hne⟩
          · by_cases hkr : k = r
            · subst hkr
              exact Or.inr ⟨gr, hgr, hgroot⟩
            · rw [hlko k hkn hkr] at hg'
              exact Or.inl ⟨g', hg', hne⟩

theorem resolveGo_props : ∀ (ns : List String) (m m' : FMap),
    ns.Nodup → KeysMatch m →
    resolveGo ns m = some m' →
    (m'.map Prod.fst = m.map Prod.fst)
    ∧ KeysMatch m'
    ∧ (∀ k, k ∉ ns →
        (m'.lookup k).map (fun g => (g.alias_name, g.name))
          = (m.lookup k).map (fun g => (g.alias_name, g.name)))
    ∧ (∀ x, IsRoot m x → IsRoot m' x)
    ∧ (∀ k, k ∈ ns → ∀ f', m'.lookup k = some f' → IsRoot m' f'.alias_name)
    ∧ (∀ x, x ∈ ns → ¬ IsRoot m x → countExts m' x = countExts m x + 1)
    ∧ (∀ x, x ∉ ns ∨ IsRoot m x → countExts m' x = countExts m x)
    ∧ (∀ k g', m'.lookup k = some g' → g'.alias_exts ≠ [] →
        (∃ g, m.lookup k = some g ∧ g.alias_exts ≠ []) ∨ IsRoot m' k) := by
  intro ns
  induction ns with
  | nil =>
    intro m m' _ hkm h
    simp only [resolveGo, Option.some.injEq] at h
    subst h
    exact ⟨rfl, hkm, fun k _ => rfl, fun x hx => hx,
      fun k hk => absurd hk (List.not_mem_nil k),
      fun x hx => absurd hx (List.not_mem_nil x),
      fun x _ => rfl,
      fun k g' hg' hne => Or.inl ⟨g', hg', hne⟩⟩
  | cons n rest ih =>
    intro m m' hnd hkm h
    simp only [resolveGo] at h
    cases hstep : resolveStep m n with
    | none =>
      simp only [hstep] at h
      exact Option.noConfusion h
    | some m1 =>
      simp only [hstep] at h
      obtain ⟨hnrest, hndrest⟩ := List.nodup_cons.mp hnd
      obtain ⟨Skeys, Skm, Spair, Siff, ⟨f1, hf1, hf1root⟩, Scnt_root, Scnt_nonroot, Ssrc⟩ :=
        resolveStep_props hkm hstep
      obtain ⟨Gkeys, Gkm, Gpair, Groot, Gptr, Gcnt1, Gcnt0, Gsrc⟩ :=
        ih m1 m' hndrest Skm h
      refine ⟨Gkeys.trans Skeys, Gkm, ?_, ?_, ?_, ?_, ?_, ?_⟩
      · intro k hk
        have hkn : k ≠ n := fun e => hk (e ▸ List.mem_cons_self n rest)
        have hkrest : k ∉ rest := fun e => hk (List.mem_cons_of_mem n e)
        exact (Gpair k hkrest).trans (Spair k hkn)
      · intro x hx
        exact Groot x ((Siff x).mp hx)
      · intro k hk f' hf'
        rcases List.mem_cons.mp hk with rfl | hkrest
        · have hpair := Gpair k hnrest
          rw [hf', hf1] at hpair
          simp only [Option.map_some', Option.some.injEq, Prod.mk.injEq] at hpair
          rw [hpair.1]
          exact Groot _ hf1root
        · exact Gptr k hkrest f' hf'
      · intro x hx hnx
        rcases List.mem_cons.mp hx with rfl | hxrest
        · rw [Gcnt0 x (Or.inl hnrest), Scnt_nonroot hnx x]
          simp
        · have hxn : x ≠ n := fun e => hnrest (e ▸ hxrest)
          have hnx1 : ¬ IsRoot m1 x := fun hr => hnx ((Siff x).mpr hr)
          rw [Gcnt1 x hxrest hnx1]
          by_cases hrootn : IsRoot m n
          · rw [Scnt_root hrootn x]
          · rw [Scnt_nonroot hrootn x, if_neg hxn]
      · intro x hx
        rcases hx with hx | hx
        · have hxn : x ≠ n := fun e => hx (e ▸ List.mem_cons_self n rest)
          have hxrest : x ∉ rest := fun e => hx (List.mem_cons_of_mem n e)
          rw [Gcnt0 x (Or.inl hxrest)]
          by_cases hrootn : IsRoot m n
          · rw [Scnt_root hrootn x]
          · rw [Scnt_nonroot hrootn x, if_neg hxn]
            omega
        · rw [Gcnt0 x (Or.inr ((Siff x).mp hx))]
          by_cases hrootn : IsRoot m n
          · rw [Scnt_root hrootn x]
          · have hxn : x ≠ n := fun e => hrootn (e ▸ hx)
            rw [Scnt_nonroot hrootn x, if_neg hxn]
            omega
      · intro k g' hg' hne
        rcases Gsrc k g' hg' hne with ⟨g1, hg1, hne1⟩ | hroot'
        · rcases Ssrc k g1 hg1 hne1 with hsome | hrk
          · exact Or.inl hsome
          · exact Or.inr (Groot k ((Siff k).mp hrk))
        · exact Or.inr hroot'

/-- C3: after `resolve_aliases` succeeds on a well-formed function
table (each function stored under its own name, no duplicate keys,
dependent-alias lists initially empty — exactly what
`parse_function_definitions` produces), the recorded alias target of
every function's recorded alias target is itself
(`root(root(f)) = root(f)`); every function whose declared alias
target differed from its own name is attached to exactly one
dependent-alias list, and self-naming functions to none; and every
function holding a non-empty dependent-alias list is a self-naming
root. -/
theorem c3_alias_resolution_idempotent (m m' : FMap)
    (hnd : (m.map Prod.fst).Nodup) (hkm : KeysMatch m)
    (hexts : ∀ kv ∈ m, kv.2.alias_exts = ([] : List String))
    (h : resolve_aliases m = some m') :
    (∀ k f', m'.lookup k = some f' →
      ∃ g, m'.lookup f'.alias_name = some g ∧ g.alias_name = f'.alias_name)
    ∧ (∀ k f, m.lookup k = some f →
        (f.alias_name ≠ f.name → countExts m' k = 1)
        ∧ (f.alias_name = f.name → countExts m' k = 0))
    ∧ (∀ k g', m'.lookup k = some g' → g'.alias_exts ≠ [] → g'.alias_name = g'.name) := by
  rw [resolve_aliases] at h
  obtain ⟨Gkeys, Gkm, Gpair, Groot, Gptr, Gcnt1, Gcnt0, Gsrc⟩ :=
    resolveGo_props (m.map Prod.fst) m m' hnd hkm h
  refine ⟨?_, ?_, ?_⟩
  · intro k f' hf'
    have hk : k ∈ m.map Prod.fst := by
      rw [← Gkeys]
      exact mem_keys_of_lookup hf'
    obtain ⟨g, hg, hgroot⟩ := Gptr k hk f' hf'
    exact ⟨g, hg, hgroot.trans (Gkm _ _ hg)⟩
  · intro k f hf
    constructor
    · intro hne
      have hk : k ∈ m.map Prod.fst := mem_keys_of_lookup hf
      have hnr : ¬ IsRoot m k := by
        rintro ⟨g, hg, hgroot⟩
        rw [hf] at hg
        obtain rfl : f = g := by injection hg
        exact hne hgroot
      rw [Gcnt1 k hk hnr, countExts_zero hexts]
    · intro heq
      rw [Gcnt0 k (Or.inr ⟨f, hf, heq⟩), countExts_zero hexts]
  · intro k g' hg' hne
    rcases Gsrc k g' hg' hne with ⟨g, hg, hgne⟩ | hroot
    · exact absurd (hexts (k, g) (lookup_eq_some_mem hg)) hgne
    · obtain ⟨g0, hg0, hg0root⟩ := hroot
      rw [hg'] at hg0
      obtain rfl : g' = g0 := by injection hg0
      exact hg0root

/-- Witness for C3 on the concrete chain
`glFooEXT -> glFooARB -> glFoo`: after resolution the root's entry is
its own alias target, and the alias `glFooEXT` sits in exactly one
dependent-alias list. -/
theorem c3_alias_resolution_idempotent_witness :
    countExts
      [("glFooEXT", ⟨"glFooEXT", [], "glFoo", some "glFoo", [], []⟩),
       ("glFooARB", ⟨"glFooARB", [], "glFoo", some "glFoo", [], []⟩),
       ("glFoo", ⟨"glFoo", [], "glFoo", none, ["glFooEXT", "glFooARB"], []⟩)] "glFooEXT"
      = 1
    ∧ ∃ g, List.lookup "glFoo"
        ([("glFooEXT", ⟨"glFooEXT", [], "glFoo", some "glFoo", [], []⟩),
          ("glFooARB", ⟨"glFooARB", [], "glFoo", some "glFoo", [], []⟩),
          ("glFoo", ⟨"glFoo", [], "glFoo", none, ["glFooEXT", "glFooARB"], []⟩)] : FMap)
        = some g ∧ g.alias_name = "glFoo" := by
  have h := c3_alias_resolution_idempotent
    [("glFooEXT", ⟨"glFooEXT", [], "glFooARB", none, [], []⟩),
     ("glFooARB", ⟨"glFooARB", [], "glFoo", none, [], []⟩),
     ("glFoo", ⟨"glFoo", [], "glFoo", none, [], []⟩)]
    [("glFooEXT", ⟨"glFooEXT", [], "glFoo", some "glFoo", [], []⟩),
     ("glFooARB", ⟨"glFooARB", [], "glFoo", some "glFoo", [], []⟩),
     ("glFoo", ⟨"glFoo", [], "glFoo", none, ["glFooEXT", "glFooARB"], []⟩)]
    (by decide) (keysMatch_of_forall_mem (by decide)) (by decide) (by decide)
  exact ⟨(h.2.1 "glFooEXT" ⟨"glFooEXT", [], "glFooARB", none, [], []⟩ (by decide)).1
      (by decide),
    h.1 "glFooEXT" ⟨"glFooEXT", [], "glFoo", some "glFoo", [], []⟩ (by decide)⟩

end GenDispatch
